import Mathlib

/-!
Verification development for the `elastic/go-resource` reconciliation engine.

The Go code is shallowly embedded: pure control flow is translated into Lean
functions, interface values are represented by the data they expose during a
single run, machine I/O outcomes (filesystem calls, the versioner, resource
operations) are threaded explicitly as state or injected outcomes, and Go
`error` values are modelled by an inductive type together with the unwrapping
discipline of `errors.Is`.
-/

namespace GoResource

/-- Model of Go `error` values as used in this package.  `canceled` is the
distinguished sentinel `context.Canceled`; `notExist` is `fs.ErrNotExist`;
`simple` models `errors.New`/`fmt.Errorf` without `%w`; `wrapf` models
`fmt.Errorf("...: %w", err)`, keeping the wrapping message and the cause. -/
inductive GoErr : Type where
  | canceled : GoErr
  | notExist : GoErr
  | simple (msg : String) : GoErr
  | wrapf (msg : String) (cause : GoErr) : GoErr
deriving DecidableEq, Repr

/-- The rendered message of an error, as Go's `Error()` string.
`fmt.Errorf("m: %w", err)` renders as `"m: " ++ err.Error()`. -/
def GoErr.message : GoErr → String
  | .canceled => "context canceled"
  | .notExist => "file does not exist"
  | .simple msg => msg
  | .wrapf msg cause => msg ++ ": " ++ cause.message

/-- Model of `errors.Is(e, target)` for the errors of this package: an error
matches the target if it equals it or some error in its unwrap chain does. -/
def errIs (e target : GoErr) : Bool :=
  match e with
  | .wrapf msg cause => decide (GoErr.wrapf msg cause = target) || errIs cause target
  | e => decide (e = target)

/-- Modelled from the spec: the aggregated batch error of `Apply`
(`newApplyError` in the manager; the current manager implementation is not
among the sources, only its tests).  Per the spec, `Apply` returns "a single
aggregated error value that, if non-nil, wraps every individual error
encountered" and is "nil if no resource failed".  The aggregate is modelled by
the ordered list of individual errors it wraps. -/
def newApplyError (errs : List GoErr) : Option (List GoErr) :=
  if errs = [] then none else some errs

/-- Modelled from the spec: `errors.Is` on the aggregated batch error, which
"must support testing whether a specific underlying error (e.g., cancellation)
occurred anywhere in the batch" — true iff some wrapped error matches. -/
def applyErrorIs (agg : List GoErr) (target : GoErr) : Bool :=
  agg.any fun e => errIs e target

/-- Modelled from the spec: the rendered message of the aggregated batch
error, which "must render a concise summary distinguishing the single-failure
case from the multi-failure case" (corroborated by the manager tests). -/
def applyErrorMessage (agg : List GoErr) : String :=
  match agg with
  | [e] => "there was an apply error: " ++ e.message
  | es => "there were " ++ toString es.length ++ " errors"

/-- One record of `ApplyResults`: the action taken (`create`, `update`, or
`unknown`), a reference to the resource (modelled by its position in the
declared resource list), and an optional error. -/
structure ApplyResult : Type where
  action : String
  resource : Nat
  err : Option GoErr
deriving DecidableEq, Repr

/-- `ActionCreate` of `manager.go`. -/
def ActionCreate : String := "create"

/-- `ActionUpdate` of `manager.go`. -/
def ActionUpdate : String := "update"

/-- The `unknown` action reported for pre-action failures (per the spec's
result model; the constant itself is not among the sources). -/
def ActionUnknown : String := "unknown"

/-! ## Migrator (`migration.go`)

A `migrationEntry` pairs a version with a migration function
`func(*Manager) (ApplyResults, error)`.  For `RunMigrations` the migration
function is an opaque callee; its observable behaviour in one run is the
`ApplyResults` it returns and its error, which we carry as data.  The
`Versioner` is an external interface: `Current()` is read exactly once at the
start of `RunMigrations` (parameter `currentVersion`), and each `Set(v)` call's
outcome is given by `setErr v`. -/

/-- A registered migration entry: its version and the outcome of invoking its
migration function (`results`, `err`). -/
structure MigrationEntry : Type where
  version : Nat
  results : List ApplyResult
  err : Option GoErr
deriving DecidableEq, Repr

/-- Observable calls made by `RunMigrations`: `ran v` records the invocation of
the migration function registered at version `v`; `set v` records a call
`Versioner.Set(v)`. -/
inductive MigEvent : Type where
  | ran (version : Nat) : MigEvent
  | set (version : Nat) : MigEvent
deriving DecidableEq, Repr

/-- `Migrator.RunMigrations` (`migration.go`).  `currentVersion` is the single
`m.version.Current()` read; entries with `version <= currentVersion` are
skipped; otherwise the migration function runs, its results are accumulated,
a migration error stops the run immediately, and on success
`Set(entry.version)` is called (a `Set` failure stops the run with a wrapped
error).  Besides the Go results `(ApplyResults, error)` the model returns the
trace of calls made, to make the call order provable. -/
def RunMigrations (currentVersion : Nat) (setErr : Nat → Option GoErr) :
    List MigrationEntry → List ApplyResult × List MigEvent × Option GoErr
  | [] => ([], [], none)
  | entry :: rest =>
    if entry.version ≤ currentVersion then
      RunMigrations currentVersion setErr rest
    else
      match entry.err with
      | some e => (entry.results, [MigEvent.ran entry.version], some e)
      | none =>
        match setErr entry.version with
        | some e =>
          (entry.results, [MigEvent.ran entry.version, MigEvent.set entry.version],
            some (GoErr.wrapf "failed to save migration version" e))
        | none =>
          let (rs, evs, err) := RunMigrations currentVersion setErr rest
          (entry.results ++ rs,
            MigEvent.ran entry.version :: MigEvent.set entry.version :: evs, err)

/-! ## File resource (`file.go`)

Byte contents are modelled as `List Nat`.  The MD5 function is an explicit
parameter `md5 : List Nat → List Nat` (the code only compares digests, never
inspects them); note that `file.MD5` is compared against
`string(checksum.Sum(nil))`, i.e. against the raw digest bytes, so the
declared checksum is modelled as a digest value `List Nat` too, with `[]`
playing the role of the empty string `""`. -/

/-- A `FileContent` producer `func(ctx, scope, w) error`: the run of the
producer against a sink is modelled by the bytes it writes to the sink before
returning, together with the error it returns. -/
structure FileContent : Type where
  bytes : List Nat
  err : Option GoErr
deriving DecidableEq, Repr

/-- The fields of `fs.FileInfo` read by this package: `IsDir()` and `Mode()`
(a raw mode word; permission bits are its low nine bits, as `Mode().Perm()`). -/
structure FileInfo : Type where
  IsDir : Bool
  Mode : Nat
deriving DecidableEq, Repr

/-- `fs.FileMode.Perm()`: the permission bits of a mode word. -/
def permBits (mode : Nat) : Nat := mode &&& 0o777

/-- The `File` resource declaration (`file.go`), restricted to the fields its
state inspection and content writing read.  `Mode = none` models a nil
`*fs.FileMode`; `Content = none` models a nil content producer; `MD5 = []`
models the empty expected-checksum string. -/
structure File : Type where
  Provider : String := ""
  Path : String := ""
  Absent : Bool := false
  Mode : Option Nat := none
  Directory : Bool := false
  CreateParent : Bool := false
  Force : Bool := false
  Content : Option FileContent := none
  KeepExistingContent : Bool := false
  MD5 : List Nat := []
deriving DecidableEq, Repr

/-- `File.mode()` (`file.go`): the declared mode, defaulting to `0755` for
directories and `0644` for files. -/
def File.mode (f : File) : Nat :=
  match f.Mode with
  | some m => m
  | none => if f.Directory then 0o755 else 0o644

/-- `FileState` (`file.go`): filesystem metadata of the inspected path
(`info = none` when the path does not exist), whether existence is expected
(`!f.Absent`), and the lazily opened content handle — modelled by the outcome
of opening and reading it: either the open error, or the bytes read. -/
structure FileState : Type where
  info : Option FileInfo
  expected : Bool
  content : Except GoErr (List Nat)
deriving Repr

/-- `FileState.Found` (`file.go`): the resource counts as found if the path
exists or its absence is the expected condition. -/
def FileState.Found (f : FileState) : Bool :=
  f.info.isSome || !f.expected

/-- Values of the `Resource` interface as seen by `FileState.NeedsUpdate`:
either a `*File` or some other dynamic type. -/
inductive ResourceValue : Type where
  | file (f : File) : ResourceValue
  | other (descr : String) : ResourceValue
deriving DecidableEq, Repr

/-- The body of `FileState.NeedsUpdate` (`file.go`) after the type assertion
`resource.(*File)` has succeeded.  `goosWindows` models `runtime.GOOS ==
"windows"` (the permission comparison is skipped on Windows).  In the content
branch the current content is checksummed (a failing open returns
`(true, err)`; `io.Copy`'s error is ignored by the code, so the digest is
taken over the bytes that were read); if the declared `MD5` is non-empty and
matches the current digest the function short-circuits to `(false, nil)`;
otherwise the declared content is rendered into a checksum accumulator — its
error is ignored by the code, so only the bytes written count — and the two
digests are compared. -/
def FileState.needsUpdateFile (goosWindows : Bool) (md5 : List Nat → List Nat)
    (f : FileState) (file : File) : Bool × Option GoErr :=
  if file.Absent && f.info.isSome then (true, none)
  else if f.info.any fun info => file.Directory != info.IsDir then (true, none)
  else if f.info.any fun info =>
      !goosWindows && decide (permBits file.mode ≠ permBits info.Mode) then (true, none)
  else
    match file.Content, file.KeepExistingContent with
    | some declared, false =>
      match f.content with
      | .error e => (true, some e)
      | .ok currentBytes =>
        let currentCheckSum := md5 currentBytes
        if file.MD5 ≠ [] ∧ file.MD5 = currentCheckSum then (false, none)
        else
          let expectedCheckSum := md5 declared.bytes
          if currentCheckSum ≠ expectedCheckSum then (true, none)
          else (false, none)
    | _, _ => (false, none)

/-- `FileState.NeedsUpdate` (`file.go`): it first performs the unconditional
type assertion `file := resource.(*File)`; a failing assertion panics, which
the model renders as `none`, and otherwise the body runs. -/
def FileState.NeedsUpdate (goosWindows : Bool) (md5 : List Nat → List Nat)
    (f : FileState) (resource : ResourceValue) : Option (Bool × Option GoErr) :=
  match resource with
  | .file file => some (f.needsUpdateFile goosWindows md5 file)
  | .other _ => none

/-! ## `safeWriteContent` (`file.go`)

The filesystem operations the function performs are modelled explicitly: the
prior content of the target path (`none` when absent), and the outcomes of the
fallible calls `os.CreateTemp`, `os.Remove(path)` and `os.Rename`.  A
`MultiWriter` sends the producer's bytes to the temporary file and to the
checksum accumulator in lockstep, so both see `content.bytes`. -/

/-- Outcomes of the filesystem calls issued by one `safeWriteContent` run:
`createTemp` is the error of `os.CreateTemp` (`none` = success), `removeFails`
says whether `os.Remove(path)` on an existing target fails (with an error that
is not `fs.ErrNotExist`), and `rename` is the error of `os.Rename`. -/
structure FsFaults : Type where
  createTemp : Option GoErr := none
  removeFails : Bool := false
  rename : Option GoErr := none
deriving DecidableEq, Repr

/-- The observable outcome of a `safeWriteContent` call: the returned error,
the content now at the target path (`none` = absent), and whether the
temporary file still exists. -/
structure FsOutcome : Type where
  err : Option GoErr
  target : Option (List Nat)
  tmpLeft : Bool
deriving DecidableEq, Repr

/-- The body of `safeWriteContent` (`file.go`) without the deferred
`os.Remove(tmpFile.Name())`: create the temp file; stream the declared content
through a `MultiWriter` into the temp file and an md5 accumulator; fail on a
content error; fail if a non-empty declared checksum differs from the computed
one; remove the target (ignoring `fs.ErrNotExist`), failing with
`"cannot replace file <path>"` otherwise; rename the temp file into place.
`tmpLeft` reports whether the temporary file exists at that exit point. -/
def safeWriteContentBody (md5 : List Nat → List Nat) (faults : FsFaults)
    (path : String) (content : FileContent) (md5Sum : List Nat)
    (target : Option (List Nat)) : FsOutcome :=
  match faults.createTemp with
  | some e => { err := some e, target := target, tmpLeft := false }
  | none =>
    let checksum := md5 content.bytes
    match content.err with
    | some e => { err := some e, target := target, tmpLeft := true }
    | none =>
      if md5Sum ≠ [] ∧ md5Sum ≠ checksum then
        { err := some (GoErr.simple "md5 checksum of content differs"),
          target := target, tmpLeft := true }
      else
        match target, faults.removeFails with
        | some prior, true =>
          { err := some (GoErr.simple ("cannot replace file " ++ path)),
            target := some prior, tmpLeft := true }
        | _, _ =>
          match faults.rename with
          | some e => { err := some e, target := none, tmpLeft := true }
          | none => { err := none, target := some content.bytes, tmpLeft := false }

/-- `safeWriteContent` (`file.go`): the body above together with the deferred
`os.Remove(tmpFile.Name())`, which runs on every exit route and deletes the
temporary file (on the success path the temp file has already been renamed
away, so the deferred removal is a no-op there). -/
def safeWriteContent (md5 : List Nat → List Nat) (faults : FsFaults)
    (path : String) (content : FileContent) (md5Sum : List Nat)
    (target : Option (List Nat)) : FsOutcome :=
  let o := safeWriteContentBody md5 faults path content md5Sum target
  { o with tmpLeft := false }

/-! ## Manager apply loop

Modelled from the spec: the current `Manager.applyResources` / `ApplyCtx`
implementation is not among the sources (only its tests and its callees are),
so the apply loop is modelled from the spec's §4.2 algorithm, corroborated by
the manager tests: check cancellation before each resource; on an inspection
error record an `unknown` result and continue; create when not found; ask
`NeedsUpdate` when found, recording `unknown` on error and `update` when true;
record nothing for a no-op; return all results plus the aggregated error.

A resource is an interface value performing I/O; over an abstract world type
`σ` it is modelled by its three operations.  `Get` yields (besides an error) a
state snapshot exposing `Found` and the `(bool, error)` pair that
`NeedsUpdate` returns for this declaration in this world — `Get` and
`NeedsUpdate` are read-only, so within one loop iteration the world they see
is the same.  `Create` and `Update` return their error and the changed
world. -/

/-- The `ResourceState` produced by inspecting one resource: `Found`, and the
`(bool, error)` answer of `NeedsUpdate` against the declaring resource. -/
structure ResourceState : Type where
  Found : Bool
  NeedsUpdate : Bool × Option GoErr
deriving DecidableEq, Repr

/-- A `Resource` interface value, modelled over a world type `σ` by the
observable behaviour of its three operations. -/
structure Resource (σ : Type) : Type where
  Get : σ → Except GoErr ResourceState
  Create : σ → Option GoErr × σ
  Update : σ → Option GoErr × σ

/-- Modelled from the spec: the per-resource loop of `applyResources`.
`cancel j` is `ctx.Err()` at the cancellation check performed before
processing the resource at position `j`; `i` is the position of the first
resource of `resources`.  Returns the recorded results, the final world, and
the list of individual errors encountered (in order), which `ApplyCtx`
aggregates. -/
def applyLoop {σ : Type} (cancel : Nat → Option GoErr) :
    Nat → List (Resource σ) → σ → List ApplyResult × σ × List GoErr
  | _, [], w => ([], w, [])
  | i, resource :: rest, w =>
    match cancel i with
    | some e => ([], w, [e])
    | none =>
      match resource.Get w with
      | .error e =>
        let (rs, w2, errs) := applyLoop cancel (i + 1) rest w
        ({ action := ActionUnknown, resource := i, err := some e } :: rs, w2, e :: errs)
      | .ok current =>
        if !current.Found then
          let (ce, w1) := resource.Create w
          let (rs, w2, errs) := applyLoop cancel (i + 1) rest w1
          ({ action := ActionCreate, resource := i, err := ce } :: rs, w2,
            match ce with
            | some e => e :: errs
            | none => errs)
        else
          match current.NeedsUpdate with
          | (_, some e) =>
            let (rs, w2, errs) := applyLoop cancel (i + 1) rest w
            ({ action := ActionUnknown, resource := i, err := some e } :: rs, w2, e :: errs)
          | (true, none) =>
            let (ue, w1) := resource.Update w
            let (rs, w2, errs) := applyLoop cancel (i + 1) rest w1
            ({ action := ActionUpdate, resource := i, err := ue } :: rs, w2,
              match ue with
              | some e => e :: errs
              | none => errs)
          | (false, none) => applyLoop cancel (i + 1) rest w

/-- Modelled from the spec: `Manager.ApplyCtx` for a manager with no migrator
attached (`applyMigrations` returns `(nil, nil)` then): run the loop and
aggregate the collected errors with `newApplyError`. -/
def ApplyCtx {σ : Type} (cancel : Nat → Option GoErr)
    (resources : List (Resource σ)) (w : σ) :
    List ApplyResult × σ × Option (List GoErr) :=
  let (rs, w2, errs) := applyLoop cancel 0 resources w
  (rs, w2, newApplyError errs)

/-- Modelled from the spec: `Manager.Apply`, which is `ApplyCtx` with
`context.Background()` — a context that is never cancelled. -/
def Apply {σ : Type} (resources : List (Resource σ)) (w : σ) :
    List ApplyResult × σ × Option (List GoErr) :=
  ApplyCtx (fun _ => none) resources w

/-- A resource is a no-op in world `w` when inspecting it succeeds, it is
found, and `NeedsUpdate` answers `(false, nil)` — the spec's "no action
taken" case, which must record no result. -/
def noop {σ : Type} (r : Resource σ) (w : σ) : Prop :=
  ∃ st, r.Get w = Except.ok st ∧ st.Found = true ∧ st.NeedsUpdate = (false, none)

/-! ## Theorems about the Migrator -/

/-- Claim C10: if every registered entry's version is at most the versioner's
`Current()` read, `RunMigrations` returns empty results and a nil error, and
makes no calls at all — in particular `Set` is never called, so the persisted
version cursor is unchanged. -/
theorem C10_runMigrations_all_applied_noop (currentVersion : Nat)
    (setErr : Nat → Option GoErr) (entries : List MigrationEntry)
    (h : ∀ e ∈ entries, e.version ≤ currentVersion) :
    RunMigrations currentVersion setErr entries = ([], [], none) := by
  induction entries with
  | nil => rfl
  | cons e rest ih =>
    have he : e.version ≤ currentVersion := h e (List.mem_cons_self e rest)
    have hrest : ∀ x ∈ rest, x.version ≤ currentVersion :=
      fun x hx => h x (List.mem_cons_of_mem e hx)
    simp [RunMigrations, he, ih hrest]

/-- Claim C10 witness: two entries at versions 1 and 2 with the cursor at 2. -/
theorem C10_runMigrations_all_applied_noop_witness :
    RunMigrations 2 (fun _ => none)
      [⟨1, [⟨"update", 0, none⟩], none⟩, ⟨2, [], some (GoErr.simple "never runs")⟩] =
      ([], [], none) :=
  C10_runMigrations_all_applied_noop 2 (fun _ => none) _ (by decide)

/-- Claim C3: assuming `Set` itself succeeds, `RunMigrations` invokes exactly
the registered entries with version strictly greater than the `Current()` read,
in registration order, up to and including the first entry whose migration
function fails; each successful invocation `ran v` is immediately followed by
`set v` before the next entry runs; the accumulated results are the
concatenation of the invoked entries' results; on a failure the run stops at
that entry, its version is never `set`, and its error is returned. -/
theorem C3_runMigrations_order_and_persistence (currentVersion : Nat)
    (setErr : Nat → Option GoErr) (entries : List MigrationEntry)
    (hset : ∀ v, setErr v = none) :
    RunMigrations currentVersion setErr entries =
      (let sel := entries.filter fun e => decide (currentVersion < e.version)
       let ok := sel.takeWhile fun e => e.err.isNone
       let calls := ok.map fun e => [MigEvent.ran e.version, MigEvent.set e.version]
       match sel.dropWhile fun e => e.err.isNone with
       | [] => ((ok.map fun e => e.results).flatten, calls.flatten, none)
       | f :: _ => ((ok.map fun e => e.results).flatten ++ f.results,
           calls.flatten ++ [MigEvent.ran f.version], f.err)) := by
  induction entries with
  | nil => rfl
  | cons e rest ih =>
    by_cases h : e.version ≤ currentVersion
    · have hlt : ¬ (currentVersion < e.version) := Nat.not_lt.mpr h
      simp only [RunMigrations, if_pos h, ih]
      simp [List.filter_cons, hlt]
    · have hlt : currentVersion < e.version := Nat.lt_of_not_le h
      cases herr : e.err with
      | some er =>
        simp only [RunMigrations, if_neg h, herr]
        simp [List.filter_cons, hlt, List.takeWhile_cons, List.dropWhile_cons, herr]
      | none =>
        simp only [RunMigrations, if_neg h, herr, hset e.version, ih]
        simp only [List.filter_cons, hlt, List.takeWhile_cons, List.dropWhile_cons, herr,
          Option.isNone_some, Option.isNone_none, decide_True, if_true]
        cases hd : (rest.filter fun x => decide (currentVersion < x.version)).dropWhile
            fun x => x.err.isNone with
        | nil => simp [hd]
        | cons f tail => simp [hd]

/-- Claim C3 witness: cursor at 1; entries at versions 1 (skipped), 2
(succeeds, results recorded, then `set 2`), and 3 (fails: results kept, error
returned, `set 3` never issued). -/
theorem C3_runMigrations_order_and_persistence_witness :
    RunMigrations 1 (fun _ => none)
      [⟨1, [⟨"create", 0, none⟩], none⟩,
       ⟨2, [⟨"update", 1, none⟩], none⟩,
       ⟨3, [⟨"create", 2, none⟩], some (GoErr.simple "migration failed")⟩] =
      ([⟨"update", 1, none⟩, ⟨"create", 2, none⟩],
       [MigEvent.ran 2, MigEvent.set 2, MigEvent.ran 3],
       some (GoErr.simple "migration failed")) :=
  (C3_runMigrations_order_and_persistence 1 (fun _ => none) _ (fun _ => rfl)).trans
    (by decide)

/-! ## Theorems about the File resource -/

/-- Claim C9: `FileState.NeedsUpdate` unconditionally type-asserts its
definition argument to `*File`: for every state, a definition that is not a
`*File` panics (modelled by `none`), and for a `*File` the assertion never
fails and the body runs. -/
theorem C9_needsUpdate_type_assertion (goosWindows : Bool)
    (md5 : List Nat → List Nat) (f : FileState) :
    (∀ descr, FileState.NeedsUpdate goosWindows md5 f (ResourceValue.other descr) = none)
    ∧ ∀ file, FileState.NeedsUpdate goosWindows md5 f (ResourceValue.file file) =
        some (f.needsUpdateFile goosWindows md5 file) :=
  ⟨fun _ => rfl, fun _ => rfl⟩

/-- Claim C8 counterexample: an existing file whose current content digest
matches the declared checksum (`MD5 = [1]`, current bytes `[1]`, digest
function the identity), but whose permission bits (`0600`) differ from the
declared default mode (`0644`): the claim predicts `NeedsUpdate` returns
`false`, yet the code returns `true` at the earlier permission check. -/
theorem C8_needsUpdate_checksum_counterexample :
    ({ Content := some ⟨[1], none⟩, MD5 := [1] } : File).MD5 = (fun l : List Nat => l) [1]
    ∧ FileState.needsUpdateFile false (fun l => l)
        ⟨some ⟨false, 0o600⟩, true, Except.ok [1]⟩
        { Content := some ⟨[1], none⟩, MD5 := [1] } = (true, none) := by
  constructor
  · rfl
  · decide

/-- Claim C8, amended: for an existing file and a definition that declares a
content producer, does not keep existing content, and declares an expected
MD5 checksum — provided additionally (as the earlier checks of the code
require) that the definition does not declare absence, the declared type
matches the actual type, the permission bits match (or the platform is
Windows, where the check is skipped), and the current content is readable:
if the digest of the current content equals the declared checksum,
`NeedsUpdate` returns `(false, nil)` without rendering the declared content
(the result is the same for every declared content producer); otherwise the
declared content is rendered into a checksum accumulator and the result is
`true` exactly when the two digests differ. -/
theorem C8_needsUpdate_checksum (goosWindows : Bool) (md5 : List Nat → List Nat)
    (st : FileState) (info : FileInfo) (file : File) (declared : FileContent)
    (cur : List Nat)
    (hinfo : st.info = some info)
    (hcontent : file.Content = some declared)
    (hkeep : file.KeepExistingContent = false)
    (hmd5 : file.MD5 ≠ [])
    (habsent : file.Absent = false)
    (hdir : file.Directory = info.IsDir)
    (hperm : goosWindows = true ∨ permBits file.mode = permBits info.Mode)
    (hread : st.content = Except.ok cur) :
    (file.MD5 = md5 cur →
      ∀ otherBytes otherErr,
        FileState.needsUpdateFile goosWindows md5 st
          { file with Content := some ⟨otherBytes, otherErr⟩ } = (false, none))
    ∧ (file.MD5 ≠ md5 cur →
        FileState.needsUpdateFile goosWindows md5 st file =
          (decide (md5 cur ≠ md5 declared.bytes), none)) := by
  constructor
  · intro heq otherBytes otherErr
    have hcur : md5 cur ≠ [] := fun h => hmd5 (heq.trans h)
    rcases hperm with hw | hp
    · simp [FileState.needsUpdateFile, hinfo, habsent, hdir, hkeep, hread, heq, hcur, hw]
    · simp only [File.mode, hdir] at hp
      simp [FileState.needsUpdateFile, hinfo, habsent, hdir, hkeep, hread, heq, hcur,
        File.mode, hp]
  · intro hne
    rcases hperm with hw | hp
    · simp [FileState.needsUpdateFile, hinfo, habsent, hdir, hkeep, hcontent, hread,
        hne, hw]
      by_cases hd : md5 cur = md5 declared.bytes <;> simp [hd]
    · simp only [File.mode, hdir] at hp
      simp [FileState.needsUpdateFile, hinfo, habsent, hdir, hkeep, hcontent, hread,
        hne, File.mode, hp]
      by_cases hd : md5 cur = md5 declared.bytes <;> simp [hd]

/-- Claim C8 witness: declared checksum `[5]` matches the current digest
(identity digest over bytes `[5]`), so the answer is `(false, nil)` even
though the declared content bytes `[9]` differ from the current content. -/
theorem C8_needsUpdate_checksum_witness :
    FileState.needsUpdateFile false (fun l => l)
      ⟨some ⟨false, 0o644⟩, true, Except.ok [5]⟩
      { ({ Content := some ⟨[7], none⟩, MD5 := [5] } : File) with
        Content := some ⟨[9], none⟩ } = (false, none) :=
  (C8_needsUpdate_checksum false (fun l => l)
      ⟨some ⟨false, 0o644⟩, true, Except.ok [5]⟩ ⟨false, 0o644⟩
      { Content := some ⟨[7], none⟩, MD5 := [5] } ⟨[7], none⟩ [5]
      rfl rfl rfl (by decide) rfl rfl (Or.inr rfl) rfl).1 rfl [9] none

/-- Claim C4 counterexample: the declared content streams fine and no checksum
is declared, the target (holding `[1]`) is removed, and then the final
`os.Rename` fails: `safeWriteContent` returns an error, yet the target path is
not unchanged — its prior content is gone. -/
theorem C4_safeWriteContent_counterexample :
    (safeWriteContent (fun l => l) ⟨none, false, some (GoErr.simple "rename failed")⟩
        "/etc/app.conf" ⟨[2], none⟩ [] (some [1])).err ≠ none
    ∧ (safeWriteContent (fun l => l) ⟨none, false, some (GoErr.simple "rename failed")⟩
        "/etc/app.conf" ⟨[2], none⟩ [] (some [1])).target ≠ some [1] := by
  decide

/-- Claim C4, amended: the temporary file is never left behind on any path of
`safeWriteContent`; when a non-empty checksum is declared and the computed
digest differs, the call fails with the checksum-mismatch error and the target
is unchanged; and every failure exit leaves the target unchanged, except a
failure of the final rename, which happens after the target has already been
removed and leaves the path absent. -/
theorem C4_safeWriteContent_failure_safety (md5 : List Nat → List Nat)
    (faults : FsFaults) (path : String) (content : FileContent)
    (md5Sum : List Nat) (target : Option (List Nat)) :
    (safeWriteContent md5 faults path content md5Sum target).tmpLeft = false
    ∧ (faults.createTemp = none → content.err = none →
        md5Sum ≠ [] → md5Sum ≠ md5 content.bytes →
        (safeWriteContent md5 faults path content md5Sum target).err =
            some (GoErr.simple "md5 checksum of content differs")
        ∧ (safeWriteContent md5 faults path content md5Sum target).target = target)
    ∧ ((safeWriteContent md5 faults path content md5Sum target).err ≠ none →
        (safeWriteContent md5 faults path content md5Sum target).target = target
        ∨ ((safeWriteContent md5 faults path content md5Sum target).err = faults.rename
            ∧ (safeWriteContent md5 faults path content md5Sum target).target = none)) := by
  rcases faults with ⟨ct, rm, rn⟩
  rcases content with ⟨bytes, cerr⟩
  by_cases h1 : md5Sum = [] <;> by_cases h2 : md5Sum = md5 bytes <;>
    cases ct <;> cases cerr <;> cases target <;> cases rm <;> cases rn <;>
    simp [safeWriteContent, safeWriteContentBody, h1, h2]

/-- Claim C4 witness: declared checksum `[3]` against streamed bytes `[2]`
(identity digest): the call fails with the mismatch error and the target keeps
its prior content `[1]`. -/
theorem C4_safeWriteContent_failure_safety_witness :
    (safeWriteContent (fun l => l) ⟨none, false, none⟩ "/etc/app.conf"
        ⟨[2], none⟩ [3] (some [1])).err =
      some (GoErr.simple "md5 checksum of content differs")
    ∧ (safeWriteContent (fun l => l) ⟨none, false, none⟩ "/etc/app.conf"
        ⟨[2], none⟩ [3] (some [1])).target = some [1] :=
  (C4_safeWriteContent_failure_safety (fun l => l) ⟨none, false, none⟩ "/etc/app.conf"
      ⟨[2], none⟩ [3] (some [1])).2.1 rfl rfl (by decide) (by decide)

/-! ## Theorems about the apply loop -/

/-- For a never-cancelled run, the collected error list is exactly the list of
errors carried by the recorded results, in order. -/
theorem applyLoop_errs_eq {σ : Type} (i : Nat) (l : List (Resource σ)) (w : σ) :
    (applyLoop (fun _ => none) i l w).2.2 =
      ((applyLoop (fun _ => none) i l w).1).filterMap fun r => r.err := by
  induction l generalizing i w with
  | nil => rfl
  | cons r rest ih =>
    cases hg : r.Get w with
    | error e =>
      rcases hrec : applyLoop (fun _ => none) (i + 1) rest w with ⟨rs, w2, errs⟩
      have h := ih (i + 1) w
      rw [hrec] at h
      simp only at h
      simp [applyLoop, hg, hrec, h]
    | ok st =>
      cases hF : st.Found with
      | false =>
        rcases hc : r.Create w with ⟨ce, w1⟩
        rcases hrec : applyLoop (fun _ => none) (i + 1) rest w1 with ⟨rs, w2, errs⟩
        have h := ih (i + 1) w1
        rw [hrec] at h
        simp only at h
        cases ce <;> simp [applyLoop, hg, hF, hc, hrec, h]
      | true =>
        rcases hnu : st.NeedsUpdate with ⟨nu, nuErr⟩
        cases nuErr with
        | some e =>
          rcases hrec : applyLoop (fun _ => none) (i + 1) rest w with ⟨rs, w2, errs⟩
          have h := ih (i + 1) w
          rw [hrec] at h
          simp only at h
          simp [applyLoop, hg, hF, hnu, hrec, h]
        | none =>
          cases nu with
          | true =>
            rcases hu : r.Update w with ⟨ue, w1⟩
            rcases hrec : applyLoop (fun _ => none) (i + 1) rest w1 with ⟨rs, w2, errs⟩
            have h := ih (i + 1) w1
            rw [hrec] at h
            simp only at h
            cases ue <;> simp [applyLoop, hg, hF, hnu, hu, hrec, h]
          | false =>
            simp [applyLoop, hg, hF, hnu, ih (i + 1) w]

/-- Claim C1: when a resource's `Get` fails during an apply run (and the scope
is not cancelled at its check), the loop records an `unknown`-action result
carrying that error and continues with the remaining resources in the same
world — the inspection failure does not abort the run for the resources after
it. -/
theorem C1_get_error_records_unknown_and_continues {σ : Type}
    (cancel : Nat → Option GoErr) (i : Nat) (r : Resource σ)
    (rest : List (Resource σ)) (w : σ) (e : GoErr)
    (hcancel : cancel i = none) (hget : r.Get w = Except.error e) :
    applyLoop cancel i (r :: rest) w =
      ({ action := ActionUnknown, resource := i, err := some e } ::
          (applyLoop cancel (i + 1) rest w).1,
        (applyLoop cancel (i + 1) rest w).2.1,
        e :: (applyLoop cancel (i + 1) rest w).2.2) := by
  rcases hrec : applyLoop cancel (i + 1) rest w with ⟨rs, w2, errs⟩
  simp [applyLoop, hcancel, hget, hrec]

/-- Claim C1 witness: the first of two resources fails inspection, the second
is still processed (it is created) and the run reports both. -/
theorem C1_get_error_records_unknown_and_continues_witness :
    applyLoop (fun _ => none) 0
      [⟨fun _ => Except.error (GoErr.simple "inspect failed"),
        fun w => (none, w), fun w => (none, w)⟩,
       ⟨fun _ => Except.ok ⟨false, (false, none)⟩,
        fun w => (none, w + 1), fun w => (none, w)⟩] (5 : Nat) =
      ([{ action := ActionUnknown, resource := 0,
          err := some (GoErr.simple "inspect failed") },
        { action := ActionCreate, resource := 1, err := none }],
        6, [GoErr.simple "inspect failed"]) :=
  (C1_get_error_records_unknown_and_continues (fun _ => none) 0
      ⟨fun _ => Except.error (GoErr.simple "inspect failed"),
        fun w => (none, w), fun w => (none, w)⟩
      [⟨fun _ => Except.ok ⟨false, (false, none)⟩,
        fun w => (none, w + 1), fun w => (none, w)⟩] 5
      (GoErr.simple "inspect failed") rfl rfl).trans (by rfl)

/-- Claim C5: for `Apply` (whose execution context is never cancelled), the
aggregated error is nil exactly when no recorded result carries an error; and
whenever some recorded error unwraps (in the sense of `errors.Is`) to a given
target error, the aggregated error is non-nil and also unwraps to it. -/
theorem C5_apply_aggregated_error {σ : Type} (resources : List (Resource σ))
    (w : σ) (target e : GoErr) (res : ApplyResult) :
    ((Apply resources w).2.2 = none ↔
      ((Apply resources w).1.all fun x => x.err.isNone) = true)
    ∧ (res ∈ (Apply resources w).1 → res.err = some e → errIs e target = true →
        ∃ agg, (Apply resources w).2.2 = some agg ∧ applyErrorIs agg target = true) := by
  have herrs := applyLoop_errs_eq 0 resources w
  rcases hrec : applyLoop (fun _ => none) 0 resources w with ⟨rs, w2, errs⟩
  rw [hrec] at herrs
  simp only at herrs
  constructor
  · simp only [Apply, ApplyCtx, hrec, newApplyError]
    constructor
    · intro h
      have hnil : errs = [] := by
        by_contra hne
        simp [hne] at h
      rw [herrs] at hnil
      rw [List.filterMap_eq_nil_iff] at hnil
      simp only [List.all_eq_true]
      intro x hx
      simp [Option.isNone_iff_eq_none, hnil x hx]
    · intro h
      have hnil : errs = [] := by
        rw [herrs, List.filterMap_eq_nil_iff]
        intro x hx
        simp only [List.all_eq_true] at h
        simpa [Option.isNone_iff_eq_none] using h x hx
      simp [hnil]
  · intro hmem herr his
    have hin : e ∈ errs := by
      rw [herrs]
      exact List.mem_filterMap.mpr ⟨res, by simpa [Apply, ApplyCtx, hrec] using hmem, herr⟩
    have hne : errs ≠ [] := List.ne_nil_of_mem hin
    refine ⟨errs, ?_, ?_⟩
    · simp [Apply, ApplyCtx, hrec, newApplyError, hne]
    · exact List.any_eq_true.mpr ⟨e, hin, his⟩

/-- Claim C5 witness: a single resource whose creation fails with an error
wrapping `context.Canceled`; the aggregated error unwraps to the cancellation
error. -/
theorem C5_apply_aggregated_error_witness :
    ∃ agg,
      (Apply [⟨fun _ => Except.ok ⟨false, (false, none)⟩,
          fun w => (some (GoErr.wrapf "interrupted" GoErr.canceled), w),
          fun w => (none, w)⟩] (0 : Nat)).2.2 = some agg
      ∧ applyErrorIs agg GoErr.canceled = true :=
  (C5_apply_aggregated_error
      [⟨fun _ => Except.ok ⟨false, (false, none)⟩,
        fun w => (some (GoErr.wrapf "interrupted" GoErr.canceled), w),
        fun w => (none, w)⟩] 0 GoErr.canceled
      (GoErr.wrapf "interrupted" GoErr.canceled)
      { action := ActionCreate, resource := 0,
        err := some (GoErr.wrapf "interrupted" GoErr.canceled) }).2
    (by simp [Apply, ApplyCtx, applyLoop]) rfl (by rfl)

/-- If the context is not cancelled at any check during a leading block of
resources and is cancelled at the check right after it, the loop over the
whole list equals the loop over the leading block with the cancellation error
appended — nothing after the block is processed. -/
theorem applyLoop_cancel_after {σ : Type} (cancel : Nat → Option GoErr)
    (i : Nat) (done : List (Resource σ)) (r : Resource σ)
    (rest : List (Resource σ)) (w : σ)
    (hnone : ∀ j, j < done.length → cancel (i + j) = none)
    (hcanc : cancel (i + done.length) = some GoErr.canceled) :
    applyLoop cancel i (done ++ r :: rest) w =
      ((applyLoop cancel i done w).1, (applyLoop cancel i done w).2.1,
        (applyLoop cancel i done w).2.2 ++ [GoErr.canceled]) := by
  induction done generalizing i w with
  | nil =>
    have h0 : cancel i = some GoErr.canceled := by simpa using hcanc
    simp [applyLoop, h0]
  | cons r0 rest0 ih =>
    have h0 : cancel i = none := by simpa using hnone 0 (Nat.succ_pos _)
    have hnone1 : ∀ j, j < rest0.length → cancel (i + 1 + j) = none := by
      intro j hj
      have := hnone (j + 1) (by simpa using Nat.succ_lt_succ hj)
      simpa [Nat.add_assoc, Nat.add_comm 1 j] using this
    have hcanc1 : cancel (i + 1 + rest0.length) = some GoErr.canceled := by
      have := hcanc
      simpa [List.length_cons, Nat.add_assoc, Nat.add_comm 1 rest0.length] using this
    cases hg : r0.Get w with
    | error e =>
      rcases hrec : applyLoop cancel (i + 1) (rest0 ++ r :: rest) w with ⟨rs, w2, errs⟩
      rcases hA : applyLoop cancel (i + 1) rest0 w with ⟨rs0, w20, errs0⟩
      have h := ih (i + 1) w hnone1 hcanc1
      rw [hrec, hA] at h
      simp only [Prod.mk.injEq] at h
      obtain ⟨h1, h2, h3⟩ := h
      simp [applyLoop, h0, hg, hrec, hA, h1, h2, h3]
    | ok st =>
      cases hF : st.Found with
      | false =>
        rcases hc : r0.Create w with ⟨ce, w1⟩
        rcases hrec : applyLoop cancel (i + 1) (rest0 ++ r :: rest) w1 with ⟨rs, w2, errs⟩
        rcases hA : applyLoop cancel (i + 1) rest0 w1 with ⟨rs0, w20, errs0⟩
        have h := ih (i + 1) w1 hnone1 hcanc1
        rw [hrec, hA] at h
        simp only [Prod.mk.injEq] at h
        obtain ⟨h1, h2, h3⟩ := h
        cases ce <;> simp [applyLoop, h0, hg, hF, hc, hrec, hA, h1, h2, h3]
      | true =>
        rcases hnu : st.NeedsUpdate with ⟨nu, nuErr⟩
        cases nuErr with
        | some e =>
          rcases hrec : applyLoop cancel (i + 1) (rest0 ++ r :: rest) w with ⟨rs, w2, errs⟩
          rcases hA : applyLoop cancel (i + 1) rest0 w with ⟨rs0, w20, errs0⟩
          have h := ih (i + 1) w hnone1 hcanc1
          rw [hrec, hA] at h
          simp only [Prod.mk.injEq] at h
          obtain ⟨h1, h2, h3⟩ := h
          simp [applyLoop, h0, hg, hF, hnu, hrec, hA, h1, h2, h3]
        | none =>
          cases nu with
          | true =>
            rcases hu : r0.Update w with ⟨ue, w1⟩
            rcases hrec : applyLoop cancel (i + 1) (rest0 ++ r :: rest) w1 with ⟨rs, w2, errs⟩
            rcases hA : applyLoop cancel (i + 1) rest0 w1 with ⟨rs0, w20, errs0⟩
            have h := ih (i + 1) w1 hnone1 hcanc1
            rw [hrec, hA] at h
            simp only [Prod.mk.injEq] at h
            obtain ⟨h1, h2, h3⟩ := h
            cases ue <;> simp [applyLoop, h0, hg, hF, hnu, hu, hrec, hA, h1, h2, h3]
          | false =>
            have h := ih (i + 1) w hnone1 hcanc1
            simp [applyLoop, h0, hg, hF, hnu, h]

/-- Claim C6: if the execution context is already cancelled before the
processing of a resource starts, `ApplyCtx` processes neither that resource
nor any after it, preserves the results already produced for the resources
before it, and returns an aggregated error that reports the cancellation. -/
theorem C6_cancelled_context_stops_run {σ : Type} (cancel : Nat → Option GoErr)
    (done : List (Resource σ)) (r : Resource σ) (rest : List (Resource σ)) (w : σ)
    (hnone : ∀ j, j < done.length → cancel j = none)
    (hcanc : cancel done.length = some GoErr.canceled) :
    ApplyCtx cancel (done ++ r :: rest) w =
      ((applyLoop cancel 0 done w).1, (applyLoop cancel 0 done w).2.1,
        some ((applyLoop cancel 0 done w).2.2 ++ [GoErr.canceled]))
    ∧ applyErrorIs ((applyLoop cancel 0 done w).2.2 ++ [GoErr.canceled])
        GoErr.canceled = true := by
  have h := applyLoop_cancel_after cancel 0 done r rest w
    (by simpa using hnone) (by simpa using hcanc)
  constructor
  · simp only [ApplyCtx, h, newApplyError]
    simp
  · simp [applyErrorIs, errIs]

/-- Claim C6 witness: one already-converged resource is processed, then the
cancellation (arriving before the second resource) stops the run; the result
log of the first resource is preserved and the aggregated error reports
`context.Canceled`. -/
theorem C6_cancelled_context_stops_run_witness :
    ApplyCtx (fun j => if j = 0 then none else some GoErr.canceled)
      [⟨fun _ => Except.ok ⟨false, (false, none)⟩,
        fun w => (none, w + 1), fun w => (none, w)⟩,
       ⟨fun _ => Except.ok ⟨false, (false, none)⟩,
        fun w => (none, w + 1), fun w => (none, w)⟩] (0 : Nat) =
      ([{ action := ActionCreate, resource := 0, err := none }], 1,
        some [GoErr.canceled]) :=
  ((C6_cancelled_context_stops_run (fun j => if j = 0 then none else some GoErr.canceled)
      [⟨fun _ => Except.ok ⟨false, (false, none)⟩,
        fun w => (none, w + 1), fun w => (none, w)⟩]
      ⟨fun _ => Except.ok ⟨false, (false, none)⟩,
        fun w => (none, w + 1), fun w => (none, w)⟩ [] 0
      (by intro j hj; have hj0 : j = 0 := Nat.lt_one_iff.mp hj; simp [hj0]) rfl).1).trans
    (by rfl)

/-- Every recorded result's resource position lies in the processed range. -/
theorem applyLoop_resource_bounds {σ : Type} (cancel : Nat → Option GoErr)
    (i : Nat) (l : List (Resource σ)) (w : σ) :
    ∀ res ∈ (applyLoop cancel i l w).1,
      i ≤ res.resource ∧ res.resource < i + l.length := by
  induction l generalizing i w with
  | nil => simp [applyLoop]
  | cons r rest ih =>
    intro res hres
    cases h0 : cancel i with
    | some e =>
      simp [applyLoop, h0] at hres
    | none =>
      have step : ∀ w1, res ∈ (applyLoop cancel (i + 1) rest w1).1 →
          i ≤ res.resource ∧ res.resource < i + (r :: rest).length := by
        intro w1 hmem
        have := ih (i + 1) w1 res hmem
        exact ⟨Nat.le_of_succ_le this.1, by
          simpa [List.length_cons, Nat.add_assoc, Nat.add_comm 1 rest.length]
            using this.2⟩
      cases hg : r.Get w with
      | error e =>
        rcases hrec : applyLoop cancel (i + 1) rest w with ⟨rs, w2, errs⟩
        simp [applyLoop, h0, hg, hrec] at hres
        rcases hres with hres | hres
        · subst hres
          exact ⟨Nat.le_refl i, by simp⟩
        · exact step w (by simp [hrec, hres])
      | ok st =>
        cases hF : st.Found with
        | false =>
          rcases hc : r.Create w with ⟨ce, w1⟩
          rcases hrec : applyLoop cancel (i + 1) rest w1 with ⟨rs, w2, errs⟩
          simp [applyLoop, h0, hg, hF, hc, hrec] at hres
          rcases hres with hres | hres
          · subst hres
            exact ⟨Nat.le_refl i, by simp⟩
          · exact step w1 (by simp [hrec, hres])
        | true =>
          rcases hnu : st.NeedsUpdate with ⟨nu, nuErr⟩
          cases nuErr with
          | some e =>
            rcases hrec : applyLoop cancel (i + 1) rest w with ⟨rs, w2, errs⟩
            simp [applyLoop, h0, hg, hF, hnu, hrec] at hres
            rcases hres with hres | hres
            · subst hres
              exact ⟨Nat.le_refl i, by simp⟩
            · exact step w (by simp [hrec, hres])
          | none =>
            cases nu with
            | true =>
              rcases hu : r.Update w with ⟨ue, w1⟩
              rcases hrec : applyLoop cancel (i + 1) rest w1 with ⟨rs, w2, errs⟩
              simp [applyLoop, h0, hg, hF, hnu, hu, hrec] at hres
              rcases hres with hres | hres
              · subst hres
                exact ⟨Nat.le_refl i, by simp⟩
              · exact step w1 (by simp [hrec, hres])
            | false =>
              simp only [applyLoop, h0, hg, hF, hnu] at hres
              exact step w hres

/-- Claim C7: one apply run records at most one result per resource — the
recorded resource positions are strictly increasing, so they are pairwise
distinct and appear in declaration order, and each lies in the processed
range — and a resource that is found and needs no update records no result at
all (its loop iteration is exactly the loop over the rest). -/
theorem C7_at_most_one_result_per_resource {σ : Type}
    (cancel : Nat → Option GoErr) (i : Nat) (l : List (Resource σ)) (w : σ)
    (r : Resource σ) (rest : List (Resource σ)) (st : ResourceState) :
    List.Sorted (· < ·) (((applyLoop cancel i l w).1).map fun x => x.resource)
    ∧ (∀ res ∈ (applyLoop cancel i l w).1,
        i ≤ res.resource ∧ res.resource < i + l.length)
    ∧ (cancel i = none → r.Get w = Except.ok st → st.Found = true →
        st.NeedsUpdate = (false, none) →
        applyLoop cancel i (r :: rest) w = applyLoop cancel (i + 1) rest w) := by
  refine ⟨?_, applyLoop_resource_bounds cancel i l w, ?_⟩
  · induction l generalizing i w with
    | nil => simp [applyLoop]
    | cons r0 rest0 ih =>
      have step : ∀ w1 (res : ApplyResult),
          res ∈ (applyLoop cancel (i + 1) rest0 w1).1 → i < res.resource := by
        intro w1 res hres
        have := (applyLoop_resource_bounds cancel (i + 1) rest0 w1 res hres).1
        omega
      cases h0 : cancel i with
      | some e => simp [applyLoop, h0]
      | none =>
        cases hg : r0.Get w with
        | error e =>
          rcases hrec : applyLoop cancel (i + 1) rest0 w with ⟨rs, w2, errs⟩
          have hs := ih (i + 1) w
          rw [hrec] at hs
          simp only at hs
          simp only [applyLoop, h0, hg, hrec, List.map_cons, List.sorted_cons]
          refine ⟨?_, hs⟩
          intro b hb
          rcases List.mem_map.mp hb with ⟨res, hres, hvres⟩
          have := step w res (by rw [hrec]; exact hres)
          omega
        | ok st0 =>
          cases hF : st0.Found with
          | false =>
            rcases hc : r0.Create w with ⟨ce, w1⟩
            rcases hrec : applyLoop cancel (i + 1) rest0 w1 with ⟨rs, w2, errs⟩
            have hs := ih (i + 1) w1
            rw [hrec] at hs
            simp only at hs
            simp only [applyLoop, h0, hg, hF, hc, Bool.not_false, if_pos, hrec,
              List.map_cons, List.sorted_cons]
            refine ⟨?_, hs⟩
            intro b hb
            rcases List.mem_map.mp hb with ⟨res, hres, hvres⟩
            have := step w1 res (by rw [hrec]; exact hres)
            omega
          | true =>
            rcases hnu : st0.NeedsUpdate with ⟨nu, nuErr⟩
            cases nuErr with
            | some e =>
              rcases hrec : applyLoop cancel (i + 1) rest0 w with ⟨rs, w2, errs⟩
              have hs := ih (i + 1) w
              rw [hrec] at hs
              simp only at hs
              simp only [applyLoop, h0, hg, hF, hnu, Bool.not_true, Bool.false_eq_true,
                if_false, hrec, List.map_cons, List.sorted_cons]
              refine ⟨?_, hs⟩
              intro b hb
              rcases List.mem_map.mp hb with ⟨res, hres, hvres⟩
              have := step w res (by rw [hrec]; exact hres)
              omega
            | none =>
              cases nu with
              | true =>
                rcases hu : r0.Update w with ⟨ue, w1⟩
                rcases hrec : applyLoop cancel (i + 1) rest0 w1 with ⟨rs, w2, errs⟩
                have hs := ih (i + 1) w1
                rw [hrec] at hs
                simp only at hs
                simp only [applyLoop, h0, hg, hF, hnu, Bool.not_true, Bool.false_eq_true,
                  if_false, hu, hrec, List.map_cons, List.sorted_cons]
                refine ⟨?_, hs⟩
                intro b hb
                rcases List.mem_map.mp hb with ⟨res, hres, hvres⟩
                have := step w1 res (by rw [hrec]; exact hres)
                omega
              | false =>
                simp only [applyLoop, h0, hg, hF, hnu, Bool.not_true, Bool.false_eq_true,
                  if_false]
                exact ih (i + 1) w
  · intro hcancel hget hfound hnu
    simp [applyLoop, hcancel, hget, hfound, hnu]

/-- Claim C7 witness: a found, up-to-date resource records nothing — applying
a one-element list containing it equals the empty loop. -/
theorem C7_at_most_one_result_per_resource_witness :
    applyLoop (fun _ => none) 0
      [⟨fun _ => Except.ok ⟨true, (false, none)⟩,
        fun w => (none, w), fun w => (none, w)⟩] (7 : Nat) = ([], 7, []) :=
  ((C7_at_most_one_result_per_resource (fun _ => none) 0 [] 7
      ⟨fun _ => Except.ok ⟨true, (false, none)⟩,
        fun w => (none, w), fun w => (none, w)⟩ [] ⟨true, (false, none)⟩).2.2
    rfl rfl rfl rfl).trans (by rfl)

/-- A run over resources that are all no-ops records nothing, changes nothing
and collects no errors. -/
theorem applyLoop_noop_run {σ : Type} (i : Nat) (l : List (Resource σ)) (w : σ)
    (h : ∀ r ∈ l, noop r w) :
    applyLoop (fun _ => none) i l w = ([], w, []) := by
  induction l generalizing i with
  | nil => rfl
  | cons r rest ih =>
    rcases h r (List.mem_cons_self r rest) with ⟨st, hget, hfound, hnu⟩
    have hrest := ih (i + 1) fun x hx => h x (List.mem_cons_of_mem r hx)
    simp [applyLoop, hget, hfound, hnu, hrest]

/-- If some resource of the list is not a no-op in the starting world, the run
records at least one result. -/
theorem applyLoop_ne_nil_of_divergent {σ : Type} (i : Nat)
    (l : List (Resource σ)) (w : σ) (h : ∃ r ∈ l, ¬ noop r w) :
    (applyLoop (fun _ => none) i l w).1 ≠ [] := by
  induction l generalizing i w with
  | nil => simp at h
  | cons r rest ih =>
    by_cases hr : noop r w
    · rcases hr with ⟨st, hget, hfound, hnu⟩
      have hrest : ∃ x ∈ rest, ¬ noop x w := by
        rcases h with ⟨x, hx, hnx⟩
        rcases List.mem_cons.mp hx with rfl | hx
        · exact absurd ⟨st, hget, hfound, hnu⟩ hnx
        · exact ⟨x, hx, hnx⟩
      simp only [applyLoop, hget, hfound, hnu, Bool.not_true, Bool.false_eq_true,
        if_false]
      exact ih (i + 1) w hrest
    · cases hg : r.Get w with
      | error e =>
        rcases hrec : applyLoop (fun _ => none) (i + 1) rest w with ⟨rs, w2, errs⟩
        simp [applyLoop, hg, hrec]
      | ok st =>
        cases hF : st.Found with
        | false =>
          rcases hc : r.Create w with ⟨ce, w1⟩
          rcases hrec : applyLoop (fun _ => none) (i + 1) rest w1 with ⟨rs, w2, errs⟩
          simp [applyLoop, hg, hF, hc, hrec]
        | true =>
          rcases hnu : st.NeedsUpdate with ⟨nu, nuErr⟩
          cases nuErr with
          | some e =>
            rcases hrec : applyLoop (fun _ => none) (i + 1) rest w with ⟨rs, w2, errs⟩
            simp [applyLoop, hg, hF, hnu, hrec]
          | none =>
            cases nu with
            | true =>
              rcases hu : r.Update w with ⟨ue, w1⟩
              rcases hrec : applyLoop (fun _ => none) (i + 1) rest w1 with ⟨rs, w2, errs⟩
              simp [applyLoop, hg, hF, hnu, hu, hrec]
            | false =>
              exact absurd ⟨st, hg, hF, by rw [hnu]⟩ hr

/-- A world predicate preserved by every successful `Create`/`Update` of the
listed resources is preserved by an error-free run. -/
theorem applyLoop_preserves {σ : Type} (Q : σ → Prop) (i : Nat)
    (l : List (Resource σ)) (w : σ)
    (hpres : ∀ r ∈ l, ∀ w1 w2,
      (r.Create w1 = (none, w2) ∨ r.Update w1 = (none, w2)) → Q w1 → Q w2)
    (hok : (((applyLoop (fun _ => none) i l w).1).all fun x => x.err.isNone) = true)
    (hQ : Q w) : Q ((applyLoop (fun _ => none) i l w).2.1) := by
  induction l generalizing i w with
  | nil => exact hQ
  | cons r rest ih =>
    have hpres1 : ∀ x ∈ rest, ∀ w1 w2,
        (x.Create w1 = (none, w2) ∨ x.Update w1 = (none, w2)) → Q w1 → Q w2 :=
      fun x hx => hpres x (List.mem_cons_of_mem r hx)
    cases hg : r.Get w with
    | error e =>
      rcases hrec : applyLoop (fun _ => none) (i + 1) rest w with ⟨rs, w2, errs⟩
      rw [applyLoop] at hok
      simp only [hg, hrec] at hok
      simp at hok
    | ok st =>
      cases hF : st.Found with
      | false =>
        rcases hc : r.Create w with ⟨ce, w1⟩
        rcases hrec : applyLoop (fun _ => none) (i + 1) rest w1 with ⟨rs, w2, errs⟩
        rw [applyLoop] at hok ⊢
        simp only [hg, hF, hc, hrec] at hok ⊢
        simp only [Bool.not_false, if_pos, List.all_cons, Bool.and_eq_true] at hok ⊢
        rcases hok with ⟨hce, hok⟩
        have hce2 : ce = none := by
          cases ce <;> simp_all
        subst hce2
        have hQ1 : Q w1 := hpres r (List.mem_cons_self r rest) w w1 (Or.inl hc) hQ
        have := ih (i + 1) w1 hpres1 (by rw [hrec]; simpa using hok) hQ1
        rw [hrec] at this
        simpa using this
      | true =>
        rcases hnu : st.NeedsUpdate with ⟨nu, nuErr⟩
        cases nuErr with
        | some e =>
          rcases hrec : applyLoop (fun _ => none) (i + 1) rest w with ⟨rs, w2, errs⟩
          rw [applyLoop] at hok
          simp only [hg, hF, hnu, hrec] at hok
          simp at hok
        | none =>
          cases nu with
          | true =>
            rcases hu : r.Update w with ⟨ue, w1⟩
            rcases hrec : applyLoop (fun _ => none) (i + 1) rest w1 with ⟨rs, w2, errs⟩
            rw [applyLoop] at hok ⊢
            simp only [hg, hF, hnu, hu, hrec] at hok ⊢
            simp only [Bool.not_true, Bool.false_eq_true, if_false, List.all_cons,
              Bool.and_eq_true] at hok ⊢
            rcases hok with ⟨hue, hok⟩
            have hue2 : ue = none := by
              cases ue <;> simp_all
            subst hue2
            have hQ1 : Q w1 := hpres r (List.mem_cons_self r rest) w w1 (Or.inr hu) hQ
            have := ih (i + 1) w1 hpres1 (by rw [hrec]; simpa using hok) hQ1
            rw [hrec] at this
            simpa using this
          | false =>
            rw [applyLoop] at hok ⊢
            simp only [hg, hF, hnu] at hok ⊢
            exact ih (i + 1) w hpres1 hok hQ

/-- After an error-free run of resources drawn from a list `L` satisfying the
convergence contract (successful `Create`/`Update` leave their own resource a
no-op) and the frame contract (successful actions of any listed resource
preserve no-op status of every listed resource), every processed resource is a
no-op in the final world. -/
theorem applyLoop_establishes_noop {σ : Type} (L l : List (Resource σ))
    (i : Nat) (w : σ) (hsub : ∀ r ∈ l, r ∈ L)
    (Hc : ∀ r ∈ L, ∀ w1 w2, r.Create w1 = (none, w2) → noop r w2)
    (Hu : ∀ r ∈ L, ∀ w1 w2, r.Update w1 = (none, w2) → noop r w2)
    (Hf : ∀ r ∈ L, ∀ w1 w2,
      (r.Create w1 = (none, w2) ∨ r.Update w1 = (none, w2)) →
      ∀ r2 ∈ L, noop r2 w1 → noop r2 w2)
    (hok : (((applyLoop (fun _ => none) i l w).1).all fun x => x.err.isNone) = true) :
    ∀ r ∈ l, noop r ((applyLoop (fun _ => none) i l w).2.1) := by
  induction l generalizing i w with
  | nil => simp
  | cons r rest ih =>
    have hsub1 : ∀ x ∈ rest, x ∈ L := fun x hx => hsub x (List.mem_cons_of_mem r hx)
    have hrL : r ∈ L := hsub r (List.mem_cons_self r rest)
    have hframe : ∀ w1, noop r w1 →
        (((applyLoop (fun _ => none) (i + 1) rest w1).1).all
          fun x => x.err.isNone) = true →
        noop r ((applyLoop (fun _ => none) (i + 1) rest w1).2.1) := by
      intro w1 hn hok1
      exact applyLoop_preserves (noop r) (i + 1) rest w1
        (fun x hx w2 w3 hact => Hf x (hsub1 x hx) w2 w3 hact r hrL) hok1 hn
    cases hg : r.Get w with
    | error e =>
      rcases hrec : applyLoop (fun _ => none) (i + 1) rest w with ⟨rs, w2, errs⟩
      rw [applyLoop] at hok
      simp only [hg, hrec] at hok
      simp at hok
    | ok st =>
      cases hF : st.Found with
      | false =>
        rcases hc : r.Create w with ⟨ce, w1⟩
        rcases hrec : applyLoop (fun _ => none) (i + 1) rest w1 with ⟨rs, w2, errs⟩
        rw [applyLoop] at hok ⊢
        simp only [hg, hF, hc, hrec] at hok ⊢
        simp only [Bool.not_false, if_pos, List.all_cons, Bool.and_eq_true] at hok ⊢
        rcases hok with ⟨hce, hok⟩
        have hce2 : ce = none := by
          cases ce <;> simp_all
        subst hce2
        have hn1 : noop r w1 := Hc r hrL w w1 hc
        intro x hx
        rcases List.mem_cons.mp hx with rfl | hx
        · have := hframe w1 hn1 (by rw [hrec]; simpa using hok)
          rw [hrec] at this
          simpa using this
        · have := ih (i + 1) w1 hsub1 (by rw [hrec]; simpa using hok) x hx
          rw [hrec] at this
          simpa using this
      | true =>
        rcases hnu : st.NeedsUpdate with ⟨nu, nuErr⟩
        cases nuErr with
        | some e =>
          rcases hrec : applyLoop (fun _ => none) (i + 1) rest w with ⟨rs, w2, errs⟩
          rw [applyLoop] at hok
          simp only [hg, hF, hnu, hrec] at hok
          simp at hok
        | none =>
          cases nu with
          | true =>
            rcases hu : r.Update w with ⟨ue, w1⟩
            rcases hrec : applyLoop (fun _ => none) (i + 1) rest w1 with ⟨rs, w2, errs⟩
            rw [applyLoop] at hok ⊢
            simp only [hg, hF, hnu, hu, hrec] at hok ⊢
            simp only [Bool.not_true, Bool.false_eq_true, if_false, List.all_cons,
              Bool.and_eq_true] at hok ⊢
            rcases hok with ⟨hue, hok⟩
            have hue2 : ue = none := by
              cases ue <;> simp_all
            subst hue2
            have hn1 : noop r w1 := Hu r hrL w w1 hu
            intro x hx
            rcases List.mem_cons.mp hx with rfl | hx
            · have := hframe w1 hn1 (by rw [hrec]; simpa using hok)
              rw [hrec] at this
              simpa using this
            · have := ih (i + 1) w1 hsub1 (by rw [hrec]; simpa using hok) x hx
              rw [hrec] at this
              simpa using this
          | false =>
            have hn : noop r w := ⟨st, hg, hF, by rw [hnu]⟩
            rw [applyLoop] at hok ⊢
            simp only [hg, hF, hnu] at hok ⊢
            intro x hx
            rcases List.mem_cons.mp hx with rfl | hx
            · exact hframe w hn hok
            · exact ih (i + 1) w hsub1 hok x hx

/-- Claim C2 counterexample: a resource whose `Get` keeps reporting "not
found" and whose `Create` succeeds without changing anything (exactly the
shape of the manager test helper `dummyResource{absent: true}`).  With no
external interference, the first `Apply` yields one `create` result and no
error, but the second `Apply` yields the same non-empty result set instead of
the empty one the claim predicts. -/
theorem C2_apply_twice_counterexample :
    (Apply [⟨fun _ => Except.ok ⟨false, (false, none)⟩,
        fun w => (none, w), fun w => (none, w)⟩] (0 : Nat)).1 =
      [{ action := ActionCreate, resource := 0, err := none }]
    ∧ (Apply [⟨fun _ => Except.ok ⟨false, (false, none)⟩,
        fun w => (none, w), fun w => (none, w)⟩] (0 : Nat)).2.2 = none
    ∧ (Apply [⟨fun _ => Except.ok ⟨false, (false, none)⟩,
          fun w => (none, w), fun w => (none, w)⟩]
        ((Apply [⟨fun _ => Except.ok ⟨false, (false, none)⟩,
            fun w => (none, w), fun w => (none, w)⟩] (0 : Nat)).2.1)).1 ≠ [] := by
  refine ⟨rfl, rfl, ?_⟩
  simp [Apply, ApplyCtx, applyLoop]

/-- Claim C2, amended: applying twice in a row with no external interference
yields a non-empty result set on the first call when some resource's real
state differs from its declared state, and an empty result set (and no world
change and a nil error) on the second call — provided the resources satisfy
the resource contract: a successful `Create` or `Update` actually converges
its resource (§4.1 "must bring the entity fully into the declared state"),
successful actions of one listed resource do not disturb the converged state
of any listed resource, and every action of the first call succeeded (a
failed first call is the spec's retry case, in which the second call acts
again). -/
theorem C2_apply_twice_idempotent {σ : Type} (L : List (Resource σ)) (w : σ)
    (Hc : ∀ r ∈ L, ∀ w1 w2, r.Create w1 = (none, w2) → noop r w2)
    (Hu : ∀ r ∈ L, ∀ w1 w2, r.Update w1 = (none, w2) → noop r w2)
    (Hf : ∀ r ∈ L, ∀ w1 w2,
      (r.Create w1 = (none, w2) ∨ r.Update w1 = (none, w2)) →
      ∀ r2 ∈ L, noop r2 w1 → noop r2 w2) :
    ((∃ r ∈ L, ¬ noop r w) → (Apply L w).1 ≠ [])
    ∧ ((Apply L w).2.2 = none →
        Apply L ((Apply L w).2.1) = ([], (Apply L w).2.1, none)) := by
  constructor
  · intro hdiv
    have := applyLoop_ne_nil_of_divergent 0 L w hdiv
    simpa [Apply, ApplyCtx] using this
  · intro hnil
    have herrs := applyLoop_errs_eq 0 L w
    rcases hrec : applyLoop (fun _ => none) 0 L w with ⟨rs, w2, errs⟩
    rw [hrec] at herrs
    simp only at herrs
    have hemp : errs = [] := by
      simp only [Apply, ApplyCtx, hrec, newApplyError] at hnil
      by_contra hne
      simp [hne] at hnil
    have hok : (rs.all fun x => x.err.isNone) = true := by
      rw [herrs] at hemp
      rw [List.filterMap_eq_nil_iff] at hemp
      simp only [List.all_eq_true]
      intro x hx
      simp [Option.isNone_iff_eq_none, hemp x hx]
    have hnoop : ∀ r ∈ L, noop r w2 := by
      have := applyLoop_establishes_noop L L 0 w (fun r hr => hr) Hc Hu Hf
        (by rw [hrec]; simpa using hok)
      rw [hrec] at this
      simpa using this
    have hrun2 := applyLoop_noop_run 0 L w2 hnoop
    simp [Apply, ApplyCtx, hrec, hrun2, newApplyError]

/-- Claim C2 witness: a resource modelling "the file exists" as the world
state: initially absent, its `Create` makes it exist, after which it is a
no-op.  The first `Apply` records one `create`; the second records nothing. -/
theorem C2_apply_twice_idempotent_witness :
    (Apply [⟨fun w => Except.ok ⟨w, (false, none)⟩,
        fun _ => (none, true), fun _ => (none, true)⟩] false).1 ≠ []
    ∧ Apply [⟨fun w => Except.ok ⟨w, (false, none)⟩,
          fun _ => (none, true), fun _ => (none, true)⟩]
        ((Apply [⟨fun w => Except.ok ⟨w, (false, none)⟩,
            fun _ => (none, true), fun _ => (none, true)⟩] false).2.1) =
      ([], (Apply [⟨fun w => Except.ok ⟨w, (false, none)⟩,
          fun _ => (none, true), fun _ => (none, true)⟩] false).2.1, none) := by
  have h := C2_apply_twice_idempotent
    [⟨fun w => Except.ok ⟨w, (false, none)⟩,
      fun _ => (none, true), fun _ => (none, true)⟩] false
    (by
      intro r hr w1 w2 hcreate
      rcases List.mem_singleton.mp hr with rfl
      have hw2 : w2 = true := by
        have := congrArg Prod.snd hcreate
        simpa using this.symm
      subst hw2
      exact ⟨⟨true, (false, none)⟩, rfl, rfl, rfl⟩)
    (by
      intro r hr w1 w2 hupdate
      rcases List.mem_singleton.mp hr with rfl
      have hw2 : w2 = true := by
        have := congrArg Prod.snd hupdate
        simpa using this.symm
      subst hw2
      exact ⟨⟨true, (false, none)⟩, rfl, rfl, rfl⟩)
    (by
      intro r hr w1 w2 hact r2 hr2 hn
      rcases List.mem_singleton.mp hr with rfl
      rcases List.mem_singleton.mp hr2 with rfl
      have hw2 : w2 = true := by
        rcases hact with hact | hact <;>
          simpa using (congrArg Prod.snd hact).symm
      subst hw2
      exact ⟨⟨true, (false, none)⟩, rfl, rfl, rfl⟩)
  exact ⟨h.1 ⟨_, List.mem_singleton.mpr rfl, by simp [noop]⟩, h.2 rfl⟩

end GoResource
